import Mathlib

/-!
Verification of the line-oriented Scala-to-PySpark rewriter
(`quinn/scala_to_pyspark.py`).

Strings are modelled as `List Char`.  The character classes of the
Python regular-expression module and of `str.strip`/`str.lstrip` are
modelled over the ASCII repertoire actually occurring in the rewriter's
inputs (`\s` as the six standard whitespace characters, `\w` as
alphanumerics plus underscore).
-/

namespace ScalaToPyspark

/-- Python whitespace (`\s`, `str.strip`): space, tab, newline, carriage
return, vertical tab, form feed. -/
def isSpace (c : Char) : Bool :=
  c = ' ' || c = '\t' || c = '\n' || c = '\r' || c = '\x0b' || c = '\x0c'

/-- Python word character (`\w`): alphanumeric or underscore. -/
def isWord (c : Char) : Bool :=
  c.isAlphanum || c = '_'

/-- Python `str.startswith(prefix)`. -/
def startswith : List Char → List Char → Bool
  | [], _ => true
  | _ :: _, [] => false
  | p :: ps, c :: cs => p == c && startswith ps cs

/-- Python `str.lstrip()`: remove leading whitespace. -/
def lstrip (s : List Char) : List Char := s.dropWhile isSpace

/-- Remove trailing whitespace (right half of `str.strip()`). -/
def rstrip (s : List Char) : List Char := (s.reverse.dropWhile isSpace).reverse

/-- Python `str.strip()`: remove leading and trailing whitespace. -/
def strip (s : List Char) : List Char := rstrip (lstrip s)

/-- Fuel-driven worker for Python `str.replace(old, new)`: replace
non-overlapping occurrences left to right, resuming after the inserted
text.  The fuel bounds the recursion; `old` is nonempty at every call
site, so fuel equal to the length of the subject string suffices. -/
def pyReplaceF (old new : List Char) : Nat → List Char → List Char
  | _, [] => []
  | 0, s => s
  | fuel + 1, c :: rest =>
    if startswith old (c :: rest) then
      new ++ pyReplaceF old new fuel (rest.drop (old.length - 1))
    else
      c :: pyReplaceF old new fuel rest

/-- Python `s.replace(old, new)` for nonempty `old`. -/
def pyReplace (old new s : List Char) : List Char :=
  pyReplaceF old new s.length s

/-- Fuel-driven worker for Python `str.split(sep)` (nonempty `sep`):
split at each non-overlapping occurrence of the separator, left to
right; `acc` holds the characters of the current field, reversed. -/
def pySplitF (sep : List Char) : Nat → List Char → List Char → List (List Char)
  | _, acc, [] => [acc.reverse]
  | 0, acc, s => [acc.reverse ++ s]
  | fuel + 1, acc, c :: rest =>
    if startswith sep (c :: rest) then
      acc.reverse :: pySplitF sep fuel [] (rest.drop (sep.length - 1))
    else
      pySplitF sep fuel (c :: acc) rest

/-- Python `s.split(sep)` for nonempty `sep`.  `"".split(sep) = [""]`. -/
def pySplit (sep s : List Char) : List (List Char) :=
  pySplitF sep s.length [] s

/-- Python `sep.join(xs)`. -/
def pyJoin (sep : List Char) : List (List Char) → List Char
  | [] => []
  | [x] => x
  | x :: y :: rest => x ++ sep ++ pyJoin sep (y :: rest)

/-- Model of `ScalaToPyspark.clean_args`:
`", ".join(map(lambda a: a.split(": ")[0], args.split(", ")))`. -/
def clean_args (args : List Char) : List Char :=
  pyJoin [',', ' ']
    ((pySplit [',', ' '] args).map (fun a => (pySplit [':', ' '] a).headD []))

/-!
Model of `re.search(r"(\s*)def (\w+).*\((.*)\)", s)`.

By the leftmost-then-greedy semantics of the `re` module, the match is
determined by the first position `j` at which the continuation
`def (\w+).*\((.*)\)` matches:

* group 1 is the maximal whitespace run immediately preceding `j`
  (greedy `(\s*)` from the leftmost viable start position);
* group 2 is the maximal word-character run after the literal `"def "`
  (greedy `(\w+)`; it must be nonempty);
* `.` does not match a newline, so the rest of the pattern operates on
  the text up to the next newline; greedy `.*\((.*)\)` makes group 3 the
  text strictly between the last `(` that precedes the last `)` of that
  text and that last `)`.
-/

/-- Match of the continuation `(\w+).*\((.*)\)` directly after the
literal `"def "`: returns the captured name (group 2) and raw argument
text (group 3).  The name is the maximal word run (nonempty); dropping
the part of its line (up to the next newline) that follows the last `)`
and reading backwards to the last `(` before it yields group 3. -/
def contMatchBody (rest : List Char) : Option (List Char × List Char) :=
  if rest.takeWhile isWord = [] then none
  else
    match ((rest.dropWhile isWord).takeWhile
        (fun c => c != '\n')).reverse.dropWhile (fun c => c != ')') with
    | [] => none
    | _ :: beforeR =>
      if beforeR.dropWhile (fun c => c != '(') = [] then none
      else some (rest.takeWhile isWord,
        (beforeR.takeWhile (fun c => c != '(')).reverse)

/-- Match of `def (\w+).*\((.*)\)` at the head of `s`. -/
def contMatch (s : List Char) : Option (List Char × List Char) :=
  match s with
  | a :: b :: c :: d :: rest =>
    if a = 'd' ∧ b = 'e' ∧ c = 'f' ∧ d = ' ' then contMatchBody rest else none
  | _ => none

/-- Model of `re.search(r"(\s*)def (\w+).*\((.*)\)", s)`: scan left to right for
the first position where the continuation matches, keeping in `wsAcc`
the (reversed) maximal whitespace run ending at the current position;
on success return groups 1-3. -/
def reSearchDef : List Char → List Char → Option (List Char × List Char × List Char)
  | _, [] => none
  | wsAcc, c :: rest =>
    match contMatch (c :: rest) with
    | some (name, args) => some (wsAcc.reverse, name, args)
    | none =>
      if isSpace c then reSearchDef (c :: wsAcc) rest
      else reSearchDef [] rest

/-- Model of `ScalaToPyspark.clean_function_definition`: on a regex match emit
`"{whitespace}def {method_name}({cleaned_args}):\n"`, otherwise return
the line unchanged. -/
def clean_function_definition (s : List Char) : List Char :=
  match reSearchDef [] s with
  | some (whitespace, method_name, args) =>
    whitespace ++ ('d' :: 'e' :: 'f' :: ' ' ::
      (method_name ++ ('(' :: (clean_args args ++ (')' :: ':' :: '\n' :: [])))))
  | none => s

/-! The stages of `ScalaToPyspark.lines`, in source order, applied to
the materialized list of input lines (file reading itself is I/O and
outside the transformation chain). -/

/-- remove lines that start with package -/
def removePackageLines (result : List (List Char)) : List (List Char) :=
  result.filter (fun line => !startswith "package".toList line)

/-- replace the DataFrame import statement -/
def replaceDataFrameImport (result : List (List Char)) : List (List Char) :=
  result.map (fun x =>
    if startswith "import org.apache.spark.sql.DataFrame".toList x then
      "from pyspark.sql.dataframe import DataFrame\n".toList
    else x)

/-- replace the functions import statement -/
def replaceFunctionsImport (result : List (List Char)) : List (List Char) :=
  result.map (fun x =>
    if startswith "import org.apache.spark.sql.functions".toList x then
      "import pyspark.sql.functions as F\n".toList
    else x)

/-- remove scala import statements -/
def removeScalaImports (result : List (List Char)) : List (List Char) :=
  result.filter (fun line => !startswith "import scala".toList line)

/-- remove the vals -/
def removeVal (result : List (List Char)) : List (List Char) :=
  result.map (pyReplace "val ".toList [])

/-- remove the vars -/
def removeVar (result : List (List Char)) : List (List Char) :=
  result.map (pyReplace "var ".toList [])

/-- remove ending curly braces: drop lines whose stripped content is the
single closing-brace character -/
def removeClosingBraces (result : List (List Char)) : List (List Char) :=
  result.filter (fun line => strip line != ['\x7d'])

/-- clean up the function definitions -/
def cleanFunctionDefs (result : List (List Char)) : List (List Char) :=
  result.map (fun x =>
    if startswith ['d', 'e', 'f'] (lstrip x) then clean_function_definition x
    else x)

/-- prefix SQL functions with F -/
def prefixSqlFunctions (result : List (List Char)) : List (List Char) :=
  result.map (pyReplace "col(".toList "F.col(".toList)

/-- replace null with None -/
def replaceNull (result : List (List Char)) : List (List Char) :=
  result.map (pyReplace "null".toList "None".toList)

/-- capital case true -/
def replaceTrue (result : List (List Char)) : List (List Char) :=
  result.map (pyReplace "true".toList "True".toList)

/-- capital case false -/
def replaceFalse (result : List (List Char)) : List (List Char) :=
  result.map (pyReplace "false".toList "False".toList)

/-- The full post-read transformation chain of `ScalaToPyspark.lines`,
in the exact order of the source. -/
def linesPipeline (result : List (List Char)) : List (List Char) :=
  replaceFalse (replaceTrue (replaceNull (prefixSqlFunctions
    (cleanFunctionDefs (removeClosingBraces (removeVar (removeVal
      (removeScalaImports (replaceFunctionsImport
        (replaceDataFrameImport (removePackageLines result)))))))))))

/-! Helper lemmas about the string primitives. -/

/-- Elements taken by `takeWhile` satisfy the predicate. -/
theorem mem_takeWhile_sat {p : Char → Bool} {l : List Char} {c : Char}
    (h : c ∈ l.takeWhile p) : p c = true :=
  List.mem_takeWhile_imp h

/-- The head of a nonempty `dropWhile` result fails the predicate. -/
theorem head_dropWhile_fails {p : Char → Bool} :
    ∀ {l : List Char} {a : Char} {t : List Char},
      l.dropWhile p = a :: t → p a = false := by
  intro l
  induction l with
  | nil => intro a t h; simp [List.dropWhile] at h
  | cons x xs ih =>
    intro a t h
    rw [List.dropWhile_cons] at h
    by_cases hx : p x = true
    · rw [if_pos hx] at h; exact ih h
    · rw [if_neg hx] at h
      injection h with h1 _
      rw [← h1]
      exact Bool.eq_false_iff.mpr hx

/-- `takeWhile` over a list whose prefix satisfies the predicate and is
followed by a failing element returns exactly that prefix. -/
theorem takeWhile_all_append {p : Char → Bool} :
    ∀ (l : List Char) {b : Char} {t : List Char},
      (∀ c ∈ l, p c = true) → p b = false → (l ++ b :: t).takeWhile p = l := by
  intro l
  induction l with
  | nil => intro b t _ hb; simp [List.takeWhile_cons, hb]
  | cons x xs ih =>
    intro b t hl hb
    have hx : p x = true := hl x (by simp)
    rw [List.cons_append, List.takeWhile_cons, if_pos hx,
      ih (fun c hc => hl c (List.mem_cons_of_mem _ hc)) hb]

/-- `dropWhile` over a list whose prefix satisfies the predicate and is
followed by a failing element drops exactly that prefix. -/
theorem dropWhile_all_append {p : Char → Bool} :
    ∀ (l : List Char) {b : Char} {t : List Char},
      (∀ c ∈ l, p c = true) → p b = false → (l ++ b :: t).dropWhile p = b :: t := by
  intro l
  induction l with
  | nil => intro b t _ hb; simp [List.dropWhile_cons, hb]
  | cons x xs ih =>
    intro b t hl hb
    have hx : p x = true := hl x (by simp)
    rw [List.cons_append, List.dropWhile_cons, if_pos hx,
      ih (fun c hc => hl c (List.mem_cons_of_mem _ hc)) hb]

/-- A `startswith` match of a nonempty pattern pins down the head. -/
theorem startswith_cons_head {a : Char} {p l : List Char}
    (h : startswith (a :: p) l = true) : ∃ t, l = a :: t := by
  cases l with
  | nil => simp [startswith] at h
  | cons c cs =>
    refine ⟨cs, ?_⟩
    have := (Bool.and_eq_true _ _).mp h
    have h1 : a = c := by simpa using this.1
    rw [h1]

/-! Helper lemmas about the regex model. -/

/-- The continuation pattern cannot match at a character other than
`'d'`. -/
theorem contMatch_ne_d {c : Char} (h : c ≠ 'd') (r : List Char) :
    contMatch (c :: r) = none := by
  cases r with
  | nil => rfl
  | cons b t =>
    cases t with
    | nil => rfl
    | cons c2 t2 =>
      cases t2 with
      | nil => rfl
      | cons d2 rest =>
        show (if c = 'd' ∧ b = 'e' ∧ c2 = 'f' ∧ d2 = ' ' then contMatchBody rest
          else none) = none
        rw [if_neg]
        rintro ⟨h1, -⟩
        exact h h1

/-- The continuation pattern at a literal `"def "` prefix reduces to the
body match. -/
theorem contMatch_lit (rest : List Char) :
    contMatch ('d' :: 'e' :: 'f' :: ' ' :: rest) = contMatchBody rest := by
  show (if 'd' = 'd' ∧ 'e' = 'e' ∧ 'f' = 'f' ∧ ' ' = ' ' then contMatchBody rest
    else none) = contMatchBody rest
  rw [if_pos ⟨rfl, rfl, rfl, rfl⟩]

/-- A whitespace character is not `'d'`. -/
theorem isSpace_ne_d {c : Char} (h : isSpace c = true) : c ≠ 'd' := by
  intro he
  rw [he] at h
  exact absurd h (by decide)

/-- Scanning a whitespace run accumulates it into the group-1 buffer. -/
theorem reSearchDef_ws_append :
    ∀ (ws : List Char), (∀ c ∈ ws, isSpace c = true) →
      ∀ (acc rest : List Char),
        reSearchDef acc (ws ++ rest) = reSearchDef (ws.reverse ++ acc) rest := by
  intro ws
  induction ws with
  | nil => intro _ acc rest; simp
  | cons c t ih =>
    intro h acc rest
    have hc : isSpace c = true := h c (by simp)
    have hcm : contMatch (c :: (t ++ rest)) = none :=
      contMatch_ne_d (isSpace_ne_d hc) _
    show reSearchDef acc (c :: (t ++ rest)) = _
    simp only [reSearchDef, hcm, hc, if_true]
    rw [ih (fun x hx => h x (List.mem_cons_of_mem _ hx)) (c :: acc) rest]
    simp [List.append_assoc]

/-- Body match on a line of the cleaned shape
`{name}({cas}):\n` (with `cas` free of `(` and newline):
it recovers exactly the name and the bare argument text. -/
theorem contMatchBody_cleaned (name cas : List Char)
    (hn : name ≠ []) (hnW : ∀ c ∈ name, isWord c = true)
    (h1 : ∀ c ∈ cas, c ≠ '(') (h2 : ∀ c ∈ cas, c ≠ '\n') :
    contMatchBody (name ++ ('(' :: (cas ++ (')' :: ':' :: '\n' :: [])))) =
      some (name, cas) := by
  have hpw : isWord '(' = false := by decide
  have htw : (name ++ ('(' :: (cas ++ (')' :: ':' :: '\n' :: [])))).takeWhile isWord
      = name := takeWhile_all_append name hnW hpw
  have hdw : (name ++ ('(' :: (cas ++ (')' :: ':' :: '\n' :: [])))).dropWhile isWord
      = '(' :: (cas ++ (')' :: ':' :: '\n' :: [])) := dropWhile_all_append name hnW hpw
  have hrearr : '(' :: (cas ++ (')' :: ':' :: '\n' :: []))
      = (('(' :: cas) ++ (')' :: ':' :: [])) ++ ('\n' :: []) := by simp
  have hline : ('(' :: (cas ++ (')' :: ':' :: '\n' :: []))).takeWhile
      (fun c => c != '\n') = ('(' :: cas) ++ (')' :: ':' :: []) := by
    rw [hrearr]
    refine takeWhile_all_append _ ?_ (by decide)
    intro c hc
    rcases List.mem_append.mp hc with hc' | hc'
    · rcases List.mem_cons.mp hc' with rfl | hc''
      · decide
      · exact bne_iff_ne.mpr (h2 _ hc'')
    · have hor : c = ')' ∨ c = ':' := by simpa using hc'
      rcases hor with rfl | rfl
      · decide
      · decide
  have hrev : ((('(' :: cas) ++ (')' :: ':' :: [])).reverse)
      = ':' :: ')' :: (cas.reverse ++ ('(' :: [])) := by simp
  have hafter : (':' :: ')' :: (cas.reverse ++ ('(' :: []))).dropWhile
      (fun c => c != ')') = ')' :: (cas.reverse ++ ('(' :: [])) := by
    rw [List.dropWhile_cons, if_pos (by decide), List.dropWhile_cons, if_neg (by decide)]
  have hcasrev : ∀ c ∈ cas.reverse, (c != '(') = true := fun c hc =>
    bne_iff_ne.mpr (h1 c (List.mem_reverse.mp hc))
  have hdrop2 : (cas.reverse ++ ('(' :: [])).dropWhile (fun c => c != '(')
      = '(' :: [] := dropWhile_all_append cas.reverse hcasrev (by decide)
  have htake2 : (cas.reverse ++ ('(' :: [])).takeWhile (fun c => c != '(')
      = cas.reverse := takeWhile_all_append cas.reverse hcasrev (by decide)
  rw [contMatchBody, htw, if_neg hn, hdw, hline, hrev, hafter]
  rw [show ((')' :: (cas.reverse ++ ('(' :: []))) : List Char) =
    [')'] ++ (cas.reverse ++ ('(' :: [])) from rfl]
  simp only [List.cons_append, List.nil_append]
  rw [if_neg (by rw [hdrop2]; simp)]
  rw [htake2, List.reverse_reverse]

/-- The regex search on a line of the cleaned shape
`{ws}def {name}({cas}):\n` returns exactly its three components. -/
theorem reSearchDef_cleaned (ws name cas : List Char)
    (hws : ∀ c ∈ ws, isSpace c = true)
    (hn : name ≠ []) (hnW : ∀ c ∈ name, isWord c = true)
    (h1 : ∀ c ∈ cas, c ≠ '(') (h2 : ∀ c ∈ cas, c ≠ '\n') :
    reSearchDef [] (ws ++ ('d' :: 'e' :: 'f' :: ' ' ::
        (name ++ ('(' :: (cas ++ (')' :: ':' :: '\n' :: [])))))) =
      some (ws, name, cas) := by
  rw [reSearchDef_ws_append ws hws [] _]
  have hcm : contMatch ('d' :: 'e' :: 'f' :: ' ' ::
      (name ++ ('(' :: (cas ++ (')' :: ':' :: '\n' :: []))))) = some (name, cas) := by
    rw [contMatch_lit, contMatchBody_cleaned name cas hn hnW h1 h2]
  simp only [reSearchDef, hcm]
  simp

/-- C5: the signature cleaner is idempotent on already-cleaned lines:
a line of the emitted shape `{indent}def {name}({cleaned_args}):\n` —
whitespace indent, nonempty word-character name, and an already-bare
parameter list (free of `(` and newline, and left fixed by the
argument cleaner) — is returned unchanged by a second application of
`clean_function_definition`. -/
theorem claim5_cleaner_idempotent (ws name cas : List Char)
    (hws : ∀ c ∈ ws, isSpace c = true)
    (hn : name ≠ []) (hnW : ∀ c ∈ name, isWord c = true)
    (h1 : ∀ c ∈ cas, c ≠ '(') (h2 : ∀ c ∈ cas, c ≠ '\n')
    (hbare : clean_args cas = cas) :
    clean_function_definition (ws ++ ('d' :: 'e' :: 'f' :: ' ' ::
        (name ++ ('(' :: (cas ++ (')' :: ':' :: '\n' :: [])))))) =
      ws ++ ('d' :: 'e' :: 'f' :: ' ' ::
        (name ++ ('(' :: (cas ++ (')' :: ':' :: '\n' :: []))))) := by
  simp only [clean_function_definition,
    reSearchDef_cleaned ws name cas hws hn hnW h1 h2, hbare]

/-- Witness for C5 at the concrete cleaned line `"  def add(a, b):\n"`. -/
theorem claim5_witness :
    clean_function_definition ((' ' :: ' ' :: []) ++ ('d' :: 'e' :: 'f' :: ' ' ::
        (('a' :: 'd' :: 'd' :: []) ++ ('(' ::
          (('a' :: ',' :: ' ' :: 'b' :: []) ++ (')' :: ':' :: '\n' :: [])))))) =
      (' ' :: ' ' :: []) ++ ('d' :: 'e' :: 'f' :: ' ' ::
        (('a' :: 'd' :: 'd' :: []) ++ ('(' ::
          (('a' :: ',' :: ' ' :: 'b' :: []) ++ (')' :: ':' :: '\n' :: []))))) :=
  claim5_cleaner_idempotent (' ' :: ' ' :: []) ('a' :: 'd' :: 'd' :: [])
    ('a' :: ',' :: ' ' :: 'b' :: []) (by decide) (by decide) (by decide)
    (by decide) (by decide) (by decide)

/-- C8: when the signature pattern fails to match, the cleaner returns
the original line unmodified (pass-through; the function is total, so
no error can arise). -/
theorem claim8_no_match_passthrough :
    ∀ s : List Char, reSearchDef [] s = none → clean_function_definition s = s := by
  intro s h
  simp only [clean_function_definition, h]

/-- Witness for C8 at the parenthesis-free line `"def foo\n"`. -/
theorem claim8_witness :
    clean_function_definition ("def foo\n".toList) = "def foo\n".toList :=
  claim8_no_match_passthrough _ (by decide)

/-- A replacement pass either leaves the string unchanged or its result
contains the replacement text as a contiguous segment. -/
theorem pyReplaceF_id_or_insert (old new : List Char) :
    ∀ (fuel : Nat) (s : List Char),
      pyReplaceF old new fuel s = s ∨
        ∃ a b, pyReplaceF old new fuel s = a ++ (new ++ b) := by
  intro fuel
  induction fuel with
  | zero => intro s; left; cases s <;> rfl
  | succ n ih =>
    intro s
    cases s with
    | nil => left; rfl
    | cons c rest =>
      by_cases hp : startswith old (c :: rest) = true
      · right
        refine ⟨[], pyReplaceF old new n (rest.drop (old.length - 1)), ?_⟩
        simp only [pyReplaceF, hp, if_true, List.nil_append]
      · rcases ih rest with h | ⟨a, b, hab⟩
        · left
          simp only [pyReplaceF, hp, if_false, Bool.false_eq_true]
          rw [h]
        · right
          refine ⟨c :: a, b, ?_⟩
          simp only [pyReplaceF, hp, if_false, Bool.false_eq_true]
          rw [hab]
          simp

/-- Every character of a line whose stripped content is the single
closing brace is whitespace or that brace. -/
theorem strip_char_mem {L : List Char} (h : strip L = ('\x7d' :: [])) :
    ∀ c ∈ L, isSpace c = true ∨ c = '\x7d' := by
  intro c hc
  have hsplit : L.takeWhile isSpace ++ L.dropWhile isSpace = L :=
    List.takeWhile_append_dropWhile _ _
  rcases List.mem_append.mp (by rw [hsplit]; exact hc) with h1 | h2
  · exact Or.inl (mem_takeWhile_sat h1)
  · have hc2 : c ∈ (lstrip L).reverse := List.mem_reverse.mpr h2
    have hsplit2 : (lstrip L).reverse.takeWhile isSpace ++
        (lstrip L).reverse.dropWhile isSpace = (lstrip L).reverse :=
      List.takeWhile_append_dropWhile _ _
    rcases List.mem_append.mp (by rw [hsplit2]; exact hc2) with h3 | h4
    · exact Or.inl (mem_takeWhile_sat h3)
    · have h5 : ((lstrip L).reverse.dropWhile isSpace).reverse = ('\x7d' :: []) := h
      have hdw : (lstrip L).reverse.dropWhile isSpace = ('\x7d' :: []) := by
        calc (lstrip L).reverse.dropWhile isSpace
            = (((lstrip L).reverse.dropWhile isSpace).reverse).reverse :=
              (List.reverse_reverse _).symm
          _ = (('\x7d' :: []) : List Char).reverse := by rw [h5]
          _ = ('\x7d' :: []) := rfl
      rw [hdw] at h4
      exact Or.inr (by simpa using h4)

/-- If a replacement pass maps a line to a string containing only
whitespace and closing braces, and the replacement text contains a
character that is neither, the line was left unchanged. -/
theorem pyReplace_eq_self_of (old new z L : List Char) (c0 : Char)
    (hc0 : c0 ∈ new) (hs : isSpace c0 = false) (hb : c0 ≠ '\x7d')
    (hkey : ∀ c ∈ L, isSpace c = true ∨ c = '\x7d')
    (he : pyReplace old new z = L) : z = L := by
  rcases pyReplaceF_id_or_insert old new z.length z with h | ⟨a, b, hab⟩
  · rw [pyReplace, h] at he
    exact he
  · exfalso
    rw [pyReplace, hab] at he
    have hmem : c0 ∈ L := by
      rw [← he]
      exact List.mem_append.mpr (Or.inr (List.mem_append.mpr (Or.inl hc0)))
    rcases hkey c0 hmem with h' | h'
    · rw [hs] at h'
      exact Bool.false_ne_true h'
    · exact hb h'

/-- Membership elimination through a map stage built from `pyReplace`,
for lines made of whitespace and closing braces only. -/
theorem mem_map_pyReplace_elim (old new : List Char) (c0 : Char)
    (hc0 : c0 ∈ new) (hs : isSpace c0 = false) (hb : c0 ≠ '\x7d')
    {zs : List (List Char)} {L : List Char}
    (hkey : ∀ c ∈ L, isSpace c = true ∨ c = '\x7d')
    (hm : L ∈ zs.map (pyReplace old new)) : L ∈ zs := by
  obtain ⟨z, hz, he⟩ := List.mem_map.mp hm
  exact (pyReplace_eq_self_of old new z L c0 hc0 hs hb hkey he) ▸ hz

/-- Membership elimination through the definition-cleaning stage, for
lines made of whitespace and closing braces only. -/
theorem mem_cleanFunctionDefs_elim {zs : List (List Char)} {L : List Char}
    (hkey : ∀ c ∈ L, isSpace c = true ∨ c = '\x7d')
    (hm : L ∈ cleanFunctionDefs zs) : L ∈ zs := by
  obtain ⟨z, hz, he⟩ := List.mem_map.mp hm
  by_cases hg : startswith ('d' :: 'e' :: 'f' :: []) (lstrip z) = true
  · rw [if_pos hg] at he
    rcases hr : reSearchDef [] z with _ | ⟨ws', name', args'⟩
    · simp only [clean_function_definition, hr] at he
      exact he ▸ hz
    · simp only [clean_function_definition, hr] at he
      exfalso
      have hd : ('d' : Char) ∈ L := by
        rw [← he]
        exact List.mem_append.mpr (Or.inr (by simp))
      rcases hkey 'd' hd with h' | h'
      · exact absurd h' (by decide)
      · exact absurd h' (by decide)
  · rw [if_neg hg] at he
    exact he ▸ hz

/-- C6: a line whose entire stripped content is the single closing
brace is absent from the pipeline's output (it is dropped by the
brace-filter stage and no later stage can reproduce it); a line
containing a closing brace together with other non-whitespace content
is not removed by the brace-filter stage. -/
theorem claim6_brace_filter :
    (∀ (xs : List (List Char)) (L : List Char),
      strip L = ('\x7d' :: []) → L ∉ linesPipeline xs) ∧
    (∀ (xs : List (List Char)) (L : List Char), L ∈ xs → '\x7d' ∈ L →
      (∃ c ∈ L, isSpace c = false ∧ c ≠ '\x7d') → L ∈ removeClosingBraces xs) := by
  constructor
  · intro xs L hstrip hmem
    have hkey := strip_char_mem hstrip
    simp only [linesPipeline, replaceFalse, replaceTrue, replaceNull,
      prefixSqlFunctions] at hmem
    have m1 := mem_map_pyReplace_elim "false".toList "False".toList 'F'
      (by decide) (by decide) (by decide) hkey hmem
    have m2 := mem_map_pyReplace_elim "true".toList "True".toList 'T'
      (by decide) (by decide) (by decide) hkey m1
    have m3 := mem_map_pyReplace_elim "null".toList "None".toList 'N'
      (by decide) (by decide) (by decide) hkey m2
    have m4 := mem_map_pyReplace_elim "col(".toList "F.col(".toList 'F'
      (by decide) (by decide) (by decide) hkey m3
    have m5 := mem_cleanFunctionDefs_elim hkey m4
    have m6 := (List.mem_filter.mp m5).2
    rw [hstrip] at m6
    exact absurd m6 (by decide)
  · intro xs L hmem _ hex
    refine List.mem_filter.mpr ⟨hmem, ?_⟩
    refine bne_iff_ne.mpr ?_
    intro hstrip
    obtain ⟨c, hc, hcs, hcb⟩ := hex
    rcases strip_char_mem hstrip c hc with h' | h'
    · rw [hcs] at h'
      exact Bool.false_ne_true h'
    · exact hcb h'

/-- Witness for C6: the sole-brace line `"  }  \n"` is absent from the
pipeline output, and `"x = foo() }\n"` survives the brace filter. -/
theorem claim6_witness :
    ("  \x7d  \n".toList ∉ linesPipeline ["  \x7d  \n".toList]) ∧
    ("x = foo() \x7d\n".toList ∈ removeClosingBraces ["x = foo() \x7d\n".toList]) :=
  ⟨claim6_brace_filter.1 _ _ (by decide),
    claim6_brace_filter.2 _ _ (by decide) (by decide) (by decide)⟩

/-- A successful search means the continuation pattern matched at some
suffix of the input. -/
theorem reSearchDef_some_suffix :
    ∀ (s acc ws name args : List Char), reSearchDef acc s = some (ws, name, args) →
      ∃ u t, s = u ++ t ∧ contMatch t = some (name, args) := by
  intro s
  induction s with
  | nil => intro acc ws name args h; simp [reSearchDef] at h
  | cons c rest ih =>
    intro acc ws name args h
    rcases hcm : contMatch (c :: rest) with _ | ⟨name', args'⟩
    · simp only [reSearchDef, hcm] at h
      by_cases hsp : isSpace c = true
      · rw [if_pos hsp] at h
        obtain ⟨u, t, hs, hc⟩ := ih (c :: acc) _ _ _ h
        exact ⟨c :: u, t, by rw [hs]; rfl, hc⟩
      · rw [if_neg hsp] at h
        obtain ⟨u, t, hs, hc⟩ := ih [] _ _ _ h
        exact ⟨c :: u, t, by rw [hs]; rfl, hc⟩
    · simp only [reSearchDef, hcm, Option.some.injEq, Prod.mk.injEq] at h
      refine ⟨[], c :: rest, rfl, ?_⟩
      rw [hcm, h.2.1, h.2.2]

/-- Structure of a successful continuation match: the matched suffix
starts with the literal keyword, the name is the maximal word run after
it, and the captured argument text sits between the last `(` preceding
the last `)` of the remaining line and that last `)` — i.e. it is
followed by `)` and then a `)`-free tail, and itself contains no `(`. -/
theorem contMatch_some_decomp :
    ∀ (t name args : List Char), contMatch t = some (name, args) →
      ∃ rest pre suf,
        t = 'd' :: 'e' :: 'f' :: ' ' :: rest ∧
        name = rest.takeWhile isWord ∧
        ((rest.dropWhile isWord).takeWhile (fun c => c != '\n')) =
          pre ++ ('(' :: (args ++ (')' :: suf))) ∧
        (∀ c ∈ args, c ≠ '(') ∧ (∀ c ∈ suf, c ≠ ')') := by
  intro t name args h
  match t with
  | [] => exact absurd h (by simp [contMatch])
  | [_] => exact absurd h (by simp [contMatch])
  | [_, _] => exact absurd h (by simp [contMatch])
  | [_, _, _] => exact absurd h (by simp [contMatch])
  | a :: b :: c :: d :: rest =>
    have h' : (if a = 'd' ∧ b = 'e' ∧ c = 'f' ∧ d = ' ' then contMatchBody rest
        else none) = some (name, args) := h
    by_cases hcond : a = 'd' ∧ b = 'e' ∧ c = 'f' ∧ d = ' '
    · obtain ⟨ha, hb2, hc2, hd2⟩ := hcond
      subst ha; subst hb2; subst hc2; subst hd2
      rw [if_pos ⟨rfl, rfl, rfl, rfl⟩] at h'
      rw [contMatchBody] at h'
      by_cases hn : rest.takeWhile isWord = []
      · rw [if_pos hn] at h'
        exact absurd h' (by simp)
      · rw [if_neg hn] at h'
        rcases hAR : ((rest.dropWhile isWord).takeWhile
            (fun c => c != '\n')).reverse.dropWhile (fun c => c != ')') with
          _ | ⟨r0, beforeR⟩
        · rw [hAR] at h'
          exact absurd h' (by simp)
        · rw [hAR] at h'
          have h'' : (if beforeR.dropWhile (fun c => c != '(') = [] then none
              else some (rest.takeWhile isWord,
                (beforeR.takeWhile (fun c => c != '(')).reverse)) =
              some (name, args) := h'
          by_cases hq : beforeR.dropWhile (fun c => c != '(') = []
          · rw [if_pos hq] at h''
            exact absurd h'' (by simp)
          · rw [if_neg hq] at h''
            have hpair : (rest.takeWhile isWord,
                (beforeR.takeWhile (fun c => c != '(')).reverse) = (name, args) :=
              Option.some_inj.mp h''
            have hargs : args = (beforeR.takeWhile (fun c => c != '(')).reverse :=
              (congrArg Prod.snd hpair).symm
            have hname' : name = rest.takeWhile isWord :=
              (congrArg Prod.fst hpair).symm
            have hr0 : r0 = ')' := by
              have := head_dropWhile_fails hAR
              simpa using this
            rcases hD : beforeR.dropWhile (fun c => c != '(') with _ | ⟨d0, D⟩
            · exact absurd hD hq
            · have hd0 : d0 = '(' := by
                have := head_dropWhile_fails hD
                simpa using this
              set line := (rest.dropWhile isWord).takeWhile (fun c => c != '\n')
                with hlinedef
              set T := line.reverse.takeWhile (fun c => c != ')') with hTdef
              set A := beforeR.takeWhile (fun c => c != '(') with hAdef
              have hsplit2 : A ++ ('(' :: D) = beforeR := by
                have := List.takeWhile_append_dropWhile (fun c => c != '(') beforeR
                rw [hD, hd0] at this
                rw [hAdef]
                exact this
              have hsplit : T ++ (')' :: beforeR) = line.reverse := by
                have := List.takeWhile_append_dropWhile (fun c => c != ')') line.reverse
                rw [hAR, hr0] at this
                rw [hTdef]
                exact this
              refine ⟨rest, D.reverse, T.reverse, rfl, hname', ?_, ?_, ?_⟩
              · rw [hargs, hAdef]
                rw [← hAdef, ← hlinedef]
                refine List.reverse_injective ?_
                have hgoal : (D.reverse ++ ('(' :: (A.reverse ++ (')' :: T.reverse)))).reverse
                    = T ++ (')' :: (A ++ ('(' :: D))) := by simp
                rw [hgoal, hsplit2]
                exact hsplit.symm
              · intro c0 hc0
                rw [hargs] at hc0
                have := mem_takeWhile_sat (List.mem_reverse.mp hc0)
                exact bne_iff_ne.mp this
              · intro c0 hc0
                have hcT : c0 ∈ T := List.mem_reverse.mp hc0
                rw [hTdef] at hcT
                have := mem_takeWhile_sat hcT
                exact bne_iff_ne.mp this
    · rw [if_neg hcond] at h'
      exact absurd h' (by simp)

/-- C1, counterexample: for the input line `"  definition def f(a)\n"`
the left-trimmed text begins with the keyword and the pattern matches,
the original leading whitespace is two spaces, yet the rewriter's output
line does not begin with those two spaces followed by the keyword — the
claimed shape `"{indent}def {name}({cleaned_args}):\n"` with the
original leading whitespace as indent is violated. -/
theorem claim1_counterexample :
    (("  definition def f(a)\n".toList).takeWhile isSpace = "  ".toList) ∧
    startswith ('d' :: 'e' :: 'f' :: [])
      (lstrip "  definition def f(a)\n".toList) = true ∧
    linesPipeline ["  definition def f(a)\n".toList] = [" def f(a):\n".toList] ∧
    startswith "  def".toList (" def f(a):\n".toList) = false := by decide

/-- C1, amended: on a line whose left-trimmed text begins with the
keyword and on which the pattern matches with groups `(ws, name, args)`,
the cleaner emits `{ws}def {name}({cleaned_args}):\n` where `ws` is the
whitespace run captured immediately before the matched keyword
occurrence (equal to the line's leading whitespace whenever the match
sits at the start of the line) and `cleaned_args` splits the raw
parameter text on `", "`, keeps each entry's part before the first
`": "`, and re-joins with `", "`; in particular
`"  def add(a: Int, b: Int): Int = \x7b\n"` yields
`"  def add(a, b):\n"` through the full pipeline. -/
theorem claim1_signature_rewrite :
    (∀ s ws name args : List Char,
      startswith ('d' :: 'e' :: 'f' :: []) (lstrip s) = true →
      reSearchDef [] s = some (ws, name, args) →
      clean_function_definition s =
        ws ++ ('d' :: 'e' :: 'f' :: ' ' :: (name ++ ('(' ::
          (pyJoin [',', ' '] ((pySplit [',', ' '] args).map
              (fun a => (pySplit [':', ' '] a).headD [])) ++
            (')' :: ':' :: '\n' :: [])))))) ∧
    linesPipeline ["  def add(a: Int, b: Int): Int = \x7b\n".toList] =
      ["  def add(a, b):\n".toList] := by
  constructor
  · intro s ws name args _ h
    simp only [clean_function_definition, h, clean_args]
  · decide

/-- Witness for C1 at the spec's concrete example line. -/
theorem claim1_witness :
    clean_function_definition ("  def add(a: Int, b: Int): Int = \x7b\n".toList) =
      "  ".toList ++ ('d' :: 'e' :: 'f' :: ' ' :: ("add".toList ++ ('(' ::
        (pyJoin [',', ' '] ((pySplit [',', ' '] "a: Int, b: Int".toList).map
            (fun a => (pySplit [':', ' '] a).headD [])) ++
          (')' :: ':' :: '\n' :: []))))) :=
  claim1_signature_rewrite.1 _ "  ".toList "add".toList "a: Int, b: Int".toList
    (by decide) (by decide)

/-- C2, counterexample: on the curried line
`"def foo(a: Int)(b: String) = \x7b"` the first parenthesized group of
the line contains `"a: Int"`, but the raw parameter text the regex hands
to the cleaner is `"b: String"` — the greedy `.*` selects the last
group, not the first. -/
theorem claim2_counterexample :
    reSearchDef [] ("def foo(a: Int)(b: String) = \x7b\n".toList) =
      some ([], "foo".toList, "b: String".toList) ∧
    "def foo(a: Int)(b: String) = \x7b\n".toList =
      "def foo(".toList ++ ("a: Int".toList ++ ")(b: String) = \x7b\n".toList) ∧
    ("b: String".toList ≠ "a: Int".toList) := by decide

/-- C2, amended: whenever the signature pattern matches, the raw
parameter text handed to the cleaner is the content of the *last*
parenthesis group of the matched line: on the text of the line after the
captured name, it is the segment delimited by the last `(` that precedes
the line's last `)` and that last `)` — it contains no `(`, and what
follows its closing `)` contains no further `)`. -/
theorem claim2_last_group :
    ∀ s ws name args : List Char, reSearchDef [] s = some (ws, name, args) →
      ∃ u rest pre suf,
        s = u ++ ('d' :: 'e' :: 'f' :: ' ' :: rest) ∧
        name = rest.takeWhile isWord ∧
        ((rest.dropWhile isWord).takeWhile (fun c => c != '\n')) =
          pre ++ ('(' :: (args ++ (')' :: suf))) ∧
        (∀ c ∈ args, c ≠ '(') ∧ (∀ c ∈ suf, c ≠ ')') := by
  intro s ws name args h
  obtain ⟨u, t, hs, hc⟩ := reSearchDef_some_suffix s [] ws name args h
  obtain ⟨rest, pre, suf, ht, hname, hline, hargs, hsuf⟩ :=
    contMatch_some_decomp t name args hc
  exact ⟨u, rest, pre, suf, by rw [hs, ht], hname, hline, hargs, hsuf⟩

/-- Witness for C2 at the curried concrete line. -/
theorem claim2_witness :
    ∃ u rest pre suf,
      "def foo(a: Int)(b: String) = \x7b\n".toList =
        u ++ ('d' :: 'e' :: 'f' :: ' ' :: rest) ∧
      "foo".toList = rest.takeWhile isWord ∧
      ((rest.dropWhile isWord).takeWhile (fun c => c != '\n')) =
        pre ++ ('(' :: ("b: String".toList ++ (')' :: suf))) ∧
      (∀ c ∈ "b: String".toList, c ≠ '(') ∧ (∀ c ∈ suf, c ≠ ')') :=
  claim2_last_group _ [] "foo".toList "b: String".toList (by decide)

/-- C3, counterexample: the indented line `"  package com.example.foo\n"`
has the package keyword as its first non-indentation content, yet it
passes through the whole pipeline unchanged — the package filter tests
the raw start of the line, without left-trimming. -/
theorem claim3_counterexample :
    startswith "package".toList (lstrip "  package com.example.foo\n".toList) = true ∧
    linesPipeline ["  package com.example.foo\n".toList] =
      ["  package com.example.foo\n".toList] := by decide

/-- C3, amended: the package filter drops exactly the lines that begin
with the package keyword at position zero: such a line never survives
the filter stage, and a line not beginning with the keyword at position
zero is never removed by it. -/
theorem claim3_package_filter :
    (∀ (xs : List (List Char)) (l : List Char),
      startswith "package".toList l = true → l ∉ removePackageLines xs) ∧
    (∀ (xs : List (List Char)) (l : List Char), l ∈ xs →
      startswith "package".toList l = false → l ∈ removePackageLines xs) := by
  constructor
  · intro xs l hp hmem
    have h := (List.mem_filter.mp hmem).2
    rw [hp] at h
    exact absurd h (by decide)
  · intro xs l hmem hp
    exact List.mem_filter.mpr ⟨hmem, by rw [hp]; rfl⟩

/-- Witness for C3 on concrete package and non-package lines. -/
theorem claim3_witness :
    ("package com.example.foo\n".toList ∉
      removePackageLines ["package com.example.foo\n".toList]) ∧
    ("x = 5\n".toList ∈ removePackageLines ["x = 5\n".toList]) :=
  ⟨claim3_package_filter.1 _ _ (by decide),
    claim3_package_filter.2 _ _ (by decide) (by decide)⟩

/-- C4, counterexample: a final line `"import org.apache.spark.sql.DataFrame"`
carrying no line terminator is replaced by the fixed import string,
which ends with a newline — the replacement does not preserve the
original line's (absent) terminator. -/
theorem claim4_counterexample :
    linesPipeline ["import org.apache.spark.sql.DataFrame".toList] =
      ["from pyspark.sql.dataframe import DataFrame\n".toList] ∧
    ("import org.apache.spark.sql.DataFrame".toList).getLast? = some 'e' ∧
    ("from pyspark.sql.dataframe import DataFrame\n".toList).getLast? =
      some '\n' := by decide

/-- C4, amended: every input line beginning with the DataFrame-import
prefix contributes the exact fixed replacement string
`"from pyspark.sql.dataframe import DataFrame\n"` to the pipeline's
output; the replacement always ends with a newline, so it carries the
input line's terminator exactly when that line ended with `"\n"`. -/
theorem claim4_dataframe_import :
    (∀ (xs : List (List Char)) (l : List Char), l ∈ xs →
      startswith "import org.apache.spark.sql.DataFrame".toList l = true →
      "from pyspark.sql.dataframe import DataFrame\n".toList ∈ linesPipeline xs) ∧
    ("from pyspark.sql.dataframe import DataFrame\n".toList).getLast? =
      some '\n' := by
  constructor
  · intro xs l hl hpref
    have hpack : startswith "package".toList l = false := by
      cases hq : startswith "package".toList l with
      | false => rfl
      | true =>
        exfalso
        obtain ⟨t1, ht1⟩ := startswith_cons_head
          (show startswith ('i' :: "mport org.apache.spark.sql.DataFrame".toList) l
            = true from hpref)
        obtain ⟨t2, ht2⟩ := startswith_cons_head
          (show startswith ('p' :: "ackage".toList) l = true from hq)
        rw [ht1] at ht2
        injection ht2 with hh _
        exact absurd hh (by decide)
    have m1 : l ∈ removePackageLines xs :=
      List.mem_filter.mpr ⟨hl, by rw [hpack]; rfl⟩
    have m2 : "from pyspark.sql.dataframe import DataFrame\n".toList ∈
        replaceDataFrameImport (removePackageLines xs) :=
      List.mem_map.mpr ⟨l, m1, by rw [if_pos hpref]⟩
    have m3 : "from pyspark.sql.dataframe import DataFrame\n".toList ∈
        replaceFunctionsImport (replaceDataFrameImport (removePackageLines xs)) :=
      List.mem_map.mpr ⟨_, m2, by decide⟩
    have m4 : "from pyspark.sql.dataframe import DataFrame\n".toList ∈
        removeScalaImports (replaceFunctionsImport
          (replaceDataFrameImport (removePackageLines xs))) :=
      List.mem_filter.mpr ⟨m3, by decide⟩
    have m5 : "from pyspark.sql.dataframe import DataFrame\n".toList ∈
        removeVal (removeScalaImports (replaceFunctionsImport
          (replaceDataFrameImport (removePackageLines xs)))) :=
      List.mem_map.mpr ⟨_, m4, by decide⟩
    have m6 : "from pyspark.sql.dataframe import DataFrame\n".toList ∈
        removeVar (removeVal (removeScalaImports (replaceFunctionsImport
          (replaceDataFrameImport (removePackageLines xs))))) :=
      List.mem_map.mpr ⟨_, m5, by decide⟩
    have m7 : "from pyspark.sql.dataframe import DataFrame\n".toList ∈
        removeClosingBraces (removeVar (removeVal (removeScalaImports
          (replaceFunctionsImport (replaceDataFrameImport
            (removePackageLines xs)))))) :=
      List.mem_filter.mpr ⟨m6, by decide⟩
    have m8 : "from pyspark.sql.dataframe import DataFrame\n".toList ∈
        cleanFunctionDefs (removeClosingBraces (removeVar (removeVal
          (removeScalaImports (replaceFunctionsImport (replaceDataFrameImport
            (removePackageLines xs))))))) :=
      List.mem_map.mpr ⟨_, m7, by decide⟩
    have m9 : "from pyspark.sql.dataframe import DataFrame\n".toList ∈
        prefixSqlFunctions (cleanFunctionDefs (removeClosingBraces (removeVar
          (removeVal (removeScalaImports (replaceFunctionsImport
            (replaceDataFrameImport (removePackageLines xs)))))))) :=
      List.mem_map.mpr ⟨_, m8, by decide⟩
    have m10 : "from pyspark.sql.dataframe import DataFrame\n".toList ∈
        replaceNull (prefixSqlFunctions (cleanFunctionDefs (removeClosingBraces
          (removeVar (removeVal (removeScalaImports (replaceFunctionsImport
            (replaceDataFrameImport (removePackageLines xs))))))))) :=
      List.mem_map.mpr ⟨_, m9, by decide⟩
    have m11 : "from pyspark.sql.dataframe import DataFrame\n".toList ∈
        replaceTrue (replaceNull (prefixSqlFunctions (cleanFunctionDefs
          (removeClosingBraces (removeVar (removeVal (removeScalaImports
            (replaceFunctionsImport (replaceDataFrameImport
              (removePackageLines xs)))))))))) :=
      List.mem_map.mpr ⟨_, m10, by decide⟩
    exact List.mem_map.mpr ⟨_, m11, by decide⟩
  · decide

/-- Witness for C4 on a one-line input. -/
theorem claim4_witness :
    "from pyspark.sql.dataframe import DataFrame\n".toList ∈
      linesPipeline ["import org.apache.spark.sql.DataFrame\n".toList] :=
  claim4_dataframe_import.1 ["import org.apache.spark.sql.DataFrame\n".toList]
    "import org.apache.spark.sql.DataFrame\n".toList (by decide) (by decide)

/-- C7: the pipeline never increases the number of lines — map stages
preserve the count and filter stages only shrink it. -/
theorem claim7_length_monotone :
    ∀ xs : List (List Char), (linesPipeline xs).length ≤ xs.length := by
  intro xs
  have e1 : (linesPipeline xs).length =
      (removeClosingBraces (removeVar (removeVal (removeScalaImports
        (replaceFunctionsImport (replaceDataFrameImport
          (removePackageLines xs))))))).length := by
    simp [linesPipeline, replaceFalse, replaceTrue, replaceNull,
      prefixSqlFunctions, cleanFunctionDefs]
  rw [e1]
  refine le_trans (List.length_filter_le _ _) ?_
  have e2 : (removeVar (removeVal (removeScalaImports (replaceFunctionsImport
      (replaceDataFrameImport (removePackageLines xs)))))).length =
      (removeScalaImports (replaceFunctionsImport
        (replaceDataFrameImport (removePackageLines xs)))).length := by
    simp [removeVar, removeVal]
  rw [e2]
  refine le_trans (List.length_filter_le _ _) ?_
  have e3 : (replaceFunctionsImport (replaceDataFrameImport
      (removePackageLines xs))).length = (removePackageLines xs).length := by
    simp [replaceFunctionsImport, replaceDataFrameImport]
  rw [e3]
  exact List.length_filter_le _ _

/-- C9: the transformation chain is a homomorphism for concatenation of
line sequences — every stage is a per-line filter or map, so no state
flows between lines. -/
theorem claim9_append_homomorphism :
    ∀ xs ys : List (List Char),
      linesPipeline (xs ++ ys) = linesPipeline xs ++ linesPipeline ys := by
  intro xs ys
  simp only [linesPipeline, replaceFalse, replaceTrue, replaceNull,
    prefixSqlFunctions, cleanFunctionDefs, removeClosingBraces, removeVar,
    removeVal, removeScalaImports, replaceFunctionsImport,
    replaceDataFrameImport, removePackageLines, List.filter_append,
    List.map_append]

/-- C10: the pipeline is deterministic — it is a pure function of the
input line sequence, so equal inputs yield equal outputs (the embedding
has no external or mutable state the result could depend on). -/
theorem claim10_deterministic :
    ∀ xs ys : List (List Char), xs = ys → linesPipeline xs = linesPipeline ys := by
  intro xs ys h
  rw [h]

/-- Witness for C10 at a concrete input. -/
theorem claim10_witness :
    linesPipeline ["val x = true\n".toList] =
      linesPipeline ["val x = true\n".toList] :=
  claim10_deterministic _ _ rfl

end ScalaToPyspark
